import Mathlib

/-!
Shallow embedding of the sysctl.conf-style parser and schema validator
(src/src/lib.rs and src/src/schema.rs) and verification of its specification.

Rust HashMap values are modelled as association lists with unique keys kept in
insertion order; HashMap::insert is modelled by in-place replacement of the
first binding with the given key (appending when absent).  Rust str values are
modelled by String, and every string primitive the source calls (trim, lines,
split, split_once, strip a leading dash, to_lowercase, int and float parsing)
is re-implemented below by structural recursion over the character list, so
that all definitions evaluate by kernel reduction.  The trim model covers the
ASCII fragment of the Unicode whitespace that Rust trims.
-/

namespace SysctlConf

/-! ### Character and string primitives used by the source -/

/-- Model of ASCII whitespace, the fragment of Rust char::is_whitespace the
spec exercises. -/
def isWs (c : Char) : Bool :=
  c = ' ' || c = '\t' || c = '\n' || c = '\r'

/-- Drops leading whitespace characters. -/
def dropWs : List Char → List Char
  | [] => []
  | c :: cs => if isWs c then dropWs cs else c :: cs

/-- Model of Rust str::trim on a character list: drop trailing then leading
whitespace. -/
def trimL (cs : List Char) : List Char :=
  dropWs (dropWs cs.reverse).reverse

/-- Model of Rust str::trim. -/
def trimStr (s : String) : String :=
  (trimL s.data).asString

/-- ASCII lowercasing of one character, the fragment of Rust to_lowercase the
source needs. -/
def lowerChar (c : Char) : Char :=
  if 'A' ≤ c ∧ c ≤ 'Z' then Char.ofNat (c.toNat + 32) else c

/-- Model of Rust str::to_lowercase. -/
def lowerStr (s : String) : String :=
  (s.data.map lowerChar).asString

/-- Model of Rust str::split with a one-character separator: always returns at
least one (possibly empty) group. -/
def splitChar (sep : Char) : List Char → List (List Char)
  | [] => [[]]
  | c :: cs =>
    if c = sep then [] :: splitChar sep cs
    else
      match splitChar sep cs with
      | [] => [[c]]
      | g :: gs => (c :: g) :: gs

/-- Model of Rust str::split_once with a one-character separator: splits at the
first occurrence, or returns none. -/
def splitOnceChar (sep : Char) : List Char → Option (List Char × List Char)
  | [] => none
  | c :: cs =>
    if c = sep then some ([], cs)
    else
      match splitOnceChar sep cs with
      | some (a, b) => some (c :: a, b)
      | none => none

/-- Removes one trailing carriage return, as Rust str::lines does on each
line split off at a line feed. -/
def stripCR (cs : List Char) : List Char :=
  match cs.reverse with
  | '\r' :: rest => rest.reverse
  | _ => cs

/-- Model of Rust str::lines: split on the line feed character, drop the empty
group produced by a trailing line feed, and strip one trailing carriage return
from each line. -/
def rustLines (s : String) : List String :=
  let groups := splitChar '\n' s.data
  let groups :=
    match groups.getLast? with
    | some [] => groups.dropLast
    | _ => groups
  groups.map (fun cs => (stripCR cs).asString)

/-! ### The Value tree (lib.rs) -/

/-- Value from lib.rs: a leaf string (Value::String) or a nested map
(Value::Map).  The map is an association list in insertion order. -/
inductive Value where
  | str (s : String)
  | map (m : List (String × Value))

/-- Model of HashMap::get on the association list. -/
def lookupL {α : Type} : List (String × α) → String → Option α
  | [], _ => none
  | (k, v) :: rest, key => if k = key then some v else lookupL rest key

/-- Model of HashMap::insert on the association list: replace the first
binding of the key in place, or append a new binding. -/
def insertL {α : Type} : List (String × α) → String → α → List (String × α)
  | [], key, v => [(key, v)]
  | (k, w) :: rest, key, v =>
    if k = key then (key, v) :: rest else (k, w) :: insertL rest key v

/-- Translation of set_nested_rest from lib.rs: walk the already-trimmed key
segments, fetching or creating an intermediate map at each step; a leaf in the
way is discarded and replaced by a fresh empty map. -/
def set_nested_rest : List (String × Value) → List String → Value → List (String × Value)
  | m, [], _ => m
  | m, [p], v => insertL m p v
  | m, p :: rest, v =>
    let sub :=
      match lookupL m p with
      | some (Value.map mm) => mm
      | _ => []
    insertL m p (Value.map (set_nested_rest sub rest v))

/-- Key segmentation performed by set_nested in lib.rs: split the key on dots
and trim every segment. -/
def segsOf (key : String) : List String :=
  (splitChar '.' key.data).map (fun cs => (trimL cs).asString)

/-- Translation of set_nested from lib.rs.  After splitting and trimming the
key, its one-segment and many-segment branches coincide with set_nested_rest,
so the body delegates to it; the empty-parts early return is kept although
splitting never produces an empty list. -/
def set_nested (root : List (String × Value)) (key : String) (v : Value) :
    List (String × Value) :=
  match segsOf key with
  | [] => root
  | p :: rest => set_nested_rest root (p :: rest) v

/-- ParseError from lib.rs. -/
structure ParseError where
  line : Nat
  message : String
deriving DecidableEq

/-- Classification of one physical line by the loop body of parse_str in
lib.rs: trim; skip blanks and comment lines; strip one leading dash and
re-trim, skipping if now empty; split at the first equals sign; trim the two
parts; report a missing equals sign or an empty key; otherwise an assignment
of the trimmed value to the trimmed key. -/
inductive LineClass where
  | skip
  | assign (key value : String)
  | errMissingEq
  | errEmptyKey
deriving DecidableEq

/-- Translation of the per-line logic of parse_str from lib.rs. -/
def classifyLine (line0 : String) : LineClass :=
  let l1 := trimL line0.data
  match l1 with
  | [] => .skip
  | c :: _ =>
    if c = '#' ∨ c = ';' then .skip
    else
      let l2 := trimL (match l1 with | '-' :: rest => rest | other => other)
      match l2 with
      | [] => .skip
      | _ =>
        match splitOnceChar '=' l2 with
        | none => .errMissingEq
        | some (kp, vp) =>
          match trimL kp with
          | [] => .errEmptyKey
          | key => .assign key.asString (trimL vp).asString

/-- Loop of parse_str from lib.rs over the remaining lines; the counter is the
zero-based index of the next line, as produced by enumerate. -/
def parse_go : List (String × Value) → Nat → List String → Except ParseError (List (String × Value))
  | root, _, [] => .ok root
  | root, n, l :: rest =>
    match classifyLine l with
    | .skip => parse_go root (n + 1) rest
    | .assign k v => parse_go (set_nested root k (Value.str v)) (n + 1) rest
    | .errMissingEq => .error ⟨n + 1, "missing '='"⟩
    | .errEmptyKey => .error ⟨n + 1, "empty key"⟩

/-- Translation of parse_str from lib.rs. -/
def parse_str (input : String) : Except ParseError (List (String × Value)) :=
  parse_go [] 0 (rustLines input)

/-- Lookup of a dotted path (given as its segment list) in a parsed tree:
follow intermediate maps and return whatever value sits at the end. -/
def getPath : List (String × Value) → List String → Option Value
  | _, [] => none
  | m, [p] => lookupL m p
  | m, p :: rest =>
    match lookupL m p with
    | some (Value.map mm) => getPath mm rest
    | _ => none

/-! ### Schema types (schema.rs) -/

/-- SchemaType from schema.rs. -/
inductive SchemaType where
  | string
  | bool
  | integer
  | float
deriving DecidableEq

/-- Numeric value of a digit run. -/
def digitsVal (ds : List Char) : Nat :=
  ds.foldl (fun a c => a * 10 + (c.toNat - 48)) 0

/-- Digit part of the Rust standard integer parse: one or more ASCII digits,
negated or not by the already-consumed sign, and the value must fit in the
signed 64-bit range. -/
def parseDigits (neg : Bool) (ds : List Char) : Option Int :=
  if ds.isEmpty then none
  else if ds.all Char.isDigit then
    if neg then
      if digitsVal ds ≤ 2 ^ 63 then some (-(digitsVal ds : Int)) else none
    else
      if digitsVal ds ≤ 2 ^ 63 - 1 then some (digitsVal ds : Int) else none
  else none

/-- Model of the Rust standard parse into a signed 64-bit integer: an optional
single leading plus or minus sign, then one or more ASCII digits, and the
value must fit in the signed 64-bit range. -/
def parseI64 (s : String) : Option Int :=
  match s.data with
  | [] => none
  | '+' :: ds => parseDigits false ds
  | '-' :: ds => parseDigits true ds
  | ds => parseDigits false ds

/-- Exponent digits of a float literal: one or more ASCII digits. -/
def expDigitsOk (cs : List Char) : Bool :=
  match cs with
  | [] => false
  | _ => cs.all Char.isDigit

/-- Optional exponent suffix of a float literal (input already lowercased):
nothing, or the letter e, an optional sign, and one or more digits. -/
def expOk : List Char → Bool
  | [] => true
  | 'e' :: r =>
    (match r with
     | '+' :: r2 => expDigitsOk r2
     | '-' :: r2 => expDigitsOk r2
     | r2 => expDigitsOk r2)
  | _ => false

/-- Longest digit run at the front of a character list. -/
def takeDigits : List Char → List Char × List Char
  | [] => ([], [])
  | c :: cs =>
    if Char.isDigit c then
      match takeDigits cs with
      | (d, r) => (c :: d, r)
    else ([], c :: cs)

/-- Mantissa followed by an optional exponent: digits, an optional dot with
further digits, at least one digit overall. -/
def mantissaExpOk (cs : List Char) : Bool :=
  match takeDigits cs with
  | (d1, r1) =>
    match r1 with
    | '.' :: r2 =>
      (match takeDigits r2 with
       | (d2, r3) => (!(d1.isEmpty && d2.isEmpty)) && expOk r3)
    | _ => (!d1.isEmpty) && expOk r1

/-- Model of the grammar accepted by the Rust standard parse into a 64-bit
float: an optional sign, then inf, infinity or nan (case-insensitive) or a
decimal mantissa with optional exponent.  Out-of-range literals saturate, so
acceptance is purely grammatical. -/
def isValidF64 (s : String) : Bool :=
  let cs := s.data.map lowerChar
  let cs :=
    match cs with
    | '+' :: r => r
    | '-' :: r => r
    | r => r
  if cs = "inf".data ∨ cs = "infinity".data ∨ cs = "nan".data then true
  else mantissaExpOk cs

/-- Translation of SchemaType::from_name from schema.rs: trim, lowercase, and
look the name up in the fixed table. -/
def SchemaType.from_name (name : String) : Option SchemaType :=
  let s := lowerStr (trimStr name)
  if s = "string" then some .string
  else if s = "bool" ∨ s = "boolean" then some .bool
  else if s = "integer" ∨ s = "int" then some .integer
  else if s = "float" ∨ s = "number" then some .float
  else none

/-- Translation of SchemaType::check_value from schema.rs. -/
def SchemaType.check_value : SchemaType → String → Bool
  | .string, _ => true
  | .bool, raw =>
    let s := lowerStr (trimStr raw)
    s = "true" || s = "false" || s = "1" || s = "0" || s = "yes" || s = "no"
  | .integer, raw => (parseI64 (trimStr raw)).isSome
  | .float, raw => isValidF64 (trimStr raw)

/-- SchemaParseError from schema.rs. -/
inductive SchemaParseError where
  | Parse (e : ParseError)
  | UnknownType (key : String) (type_name : String)
deriving DecidableEq

/-- SchemaValidationError from schema.rs. -/
inductive SchemaValidationError where
  | UnknownKey (key : String)
  | InvalidType (key : String) (expected : String) (value : String)
deriving DecidableEq

/-- Dotted-path concatenation used by both flatten_to_schema_impl and
validate_impl in schema.rs. -/
def joinPath (pre k : String) : String :=
  if pre = "" then k else pre ++ "." ++ k

/-- Translation of flatten_to_schema_impl from schema.rs: walk the tree in
association-list order, resolving each leaf as a type name and recording it
under its dotted path; the first unresolved name aborts the whole flatten. -/
def flatten_to_schema_impl :
    List (String × Value) → String → List (String × SchemaType) →
    Except SchemaParseError (List (String × SchemaType))
  | [], _, out => .ok out
  | (k, v) :: rest, pre, out =>
    let path := joinPath pre k
    match v with
    | Value.str t =>
      match SchemaType.from_name t with
      | none => .error (.UnknownType path t)
      | some st => flatten_to_schema_impl rest pre (insertL out path st)
    | Value.map m =>
      match flatten_to_schema_impl m path out with
      | .error e => .error e
      | .ok out2 => flatten_to_schema_impl rest pre out2

/-- Translation of flatten_to_schema from schema.rs. -/
def flatten_to_schema (parsed : List (String × Value)) :
    Except SchemaParseError (List (String × SchemaType)) :=
  flatten_to_schema_impl parsed "" []

/-- Translation of parse_schema_str from schema.rs. -/
def parse_schema_str (input : String) :
    Except SchemaParseError (List (String × SchemaType)) :=
  match parse_str input with
  | .error e => .error (.Parse e)
  | .ok parsed => flatten_to_schema parsed

/-- Lowercase display name of a schema type, as computed inline by
validate_impl in schema.rs. -/
def expected_name : SchemaType → String
  | .string => "string"
  | .bool => "bool"
  | .integer => "integer"
  | .float => "float"

/-- Translation of validate_impl from schema.rs: walk the config tree in
association-list order; a leaf whose dotted path is missing from the schema
fails with UnknownKey, a leaf failing its type check fails with InvalidType,
and the walk stops at the first failure. -/
def validate_impl :
    List (String × Value) → String → List (String × SchemaType) →
    Except SchemaValidationError Unit
  | [], _, _ => .ok ()
  | (k, v) :: rest, pre, schema =>
    let path := joinPath pre k
    match v with
    | Value.str raw =>
      match lookupL schema path with
      | none => .error (.UnknownKey path)
      | some expected =>
        if expected.check_value raw then validate_impl rest pre schema
        else .error (.InvalidType path (expected_name expected) raw)
    | Value.map m =>
      match validate_impl m path schema with
      | .error e => .error e
      | .ok _ => validate_impl rest pre schema

/-- Translation of validate from schema.rs. -/
def validate (config : List (String × Value)) (schema : List (String × SchemaType)) :
    Except SchemaValidationError Unit :=
  validate_impl config "" schema

/-- Leaves of a config tree with their dotted paths, accumulated exactly as
the traversals in schema.rs build paths; used to state what the flatten and
validate walks visit. -/
def leavesL : List (String × Value) → String → List (String × String)
  | [], _ => []
  | (k, v) :: rest, pre =>
    let path := joinPath pre k
    match v with
    | Value.str raw => (path, raw) :: leavesL rest pre
    | Value.map m => leavesL m path ++ leavesL rest pre

/-! ### Definitions used to state the claims -/

/-- Digit run with its value in range: one or more ASCII digits whose value
does not exceed the given bound. -/
def digitsInRange (ds : List Char) (bound : Nat) : Bool :=
  (!ds.isEmpty) && ds.all Char.isDigit && decide (digitsVal ds ≤ bound)

/-- Integer format stated by claim C3, written from the words of the spec: the
trimmed string is at most a single standard leading minus sign followed by
digits, no leading plus sign, and the value fits in the signed 64-bit range. -/
def claimIntFormat (raw : String) : Bool :=
  match (trimStr raw).data with
  | [] => false
  | '-' :: ds => digitsInRange ds (2 ^ 63)
  | ds => digitsInRange ds (2 ^ 63 - 1)

/-- Integer format of claim C3 amended to what the code accepts: a single
leading plus sign is also allowed. -/
def amendedIntFormat (raw : String) : Bool :=
  match (trimStr raw).data with
  | [] => false
  | '+' :: ds => digitsInRange ds (2 ^ 63 - 1)
  | '-' :: ds => digitsInRange ds (2 ^ 63)
  | ds => digitsInRange ds (2 ^ 63 - 1)

/-- Name table stated by claim C7, written from the words of the spec; applied
to the already trimmed and lowercased leaf value. -/
def claimNameTable (s : String) : Option SchemaType :=
  if s = "string" then some .string
  else if s = "bool" then some .bool
  else if s = "boolean" then some .bool
  else if s = "integer" then some .integer
  else if s = "int" then some .integer
  else if s = "float" then some .float
  else if s = "number" then some .float
  else none

/-- Success test for a schema parse result. -/
def isOkS : Except SchemaParseError (List (String × SchemaType)) → Bool
  | .ok _ => true
  | .error _ => false

/-- Parse outcome with the error line number erased, keeping the tree on
success and the error kind (its message) on failure; claim C8 compares parses
of different inputs up to this projection, since inserting lines shifts the
reported line number. -/
def eraseLn : Except ParseError (List (String × Value)) → Except String (List (String × Value))
  | .ok m => .ok m
  | .error e => .error e.message

/-- Line-number-free restatement of the parse loop, used to relate two parses
that differ only in skipped lines. -/
def parse_core : List (String × Value) → List String → Except String (List (String × Value))
  | root, [] => .ok root
  | root, l :: rest =>
    match classifyLine l with
    | .skip => parse_core root rest
    | .assign k v => parse_core (set_nested root k (Value.str v)) rest
    | .errMissingEq => .error "missing '='"
    | .errEmptyKey => .error "empty key"

/-- Lines that claim C8 says may be freely inserted or removed: blank lines
and lines whose trimmed text starts with a hash or a semicolon. -/
def skippableBC (l : String) : Bool :=
  match trimL l.data with
  | [] => true
  | c :: _ => c = '#' || c = ';'

/-! ### Basic lemmas about the map model -/

theorem lookupL_insertL_self {α : Type} (m : List (String × α)) (k : String) (v : α) :
    lookupL (insertL m k v) k = some v := by
  induction m with
  | nil => simp [insertL, lookupL]
  | cons hd tl ih =>
    obtain ⟨k0, v0⟩ := hd
    by_cases h : k0 = k <;> simp [insertL, lookupL, h, ih]

theorem lookupL_insertL_ne {α : Type} (m : List (String × α)) (k k2 : String) (v : α)
    (h : k2 ≠ k) : lookupL (insertL m k v) k2 = lookupL m k2 := by
  induction m with
  | nil => simp [insertL, lookupL, Ne.symm h]
  | cons hd tl ih =>
    obtain ⟨k0, v0⟩ := hd
    by_cases h0 : k0 = k
    · subst h0
      have hne : k0 ≠ k2 := fun hc => h hc.symm
      simp [insertL, lookupL, hne]
    · simp only [insertL, if_neg h0, lookupL]
      by_cases h2 : k0 = k2 <;> simp [h2, ih]

/-- Inserting a value at a nonempty segment path and reading the same path
back yields exactly that value, whatever was there before. -/
theorem getPath_set_rest_self (parts : List String) (m : List (String × Value)) (v : Value)
    (h : parts ≠ []) : getPath (set_nested_rest m parts v) parts = some v := by
  induction parts generalizing m with
  | nil => exact absurd rfl h
  | cons p rest ih =>
    cases rest with
    | nil => simp [set_nested_rest, getPath, lookupL_insertL_self]
    | cons q qs =>
      simp only [set_nested_rest, getPath, lookupL_insertL_self]
      exact ih _ (by simp)

/-- Reading the empty map along any nonempty path yields nothing. -/
theorem getPath_nil_map (parts : List String) (h : parts ≠ []) :
    getPath ([] : List (String × Value)) parts = none := by
  cases parts with
  | nil => exact absurd rfl h
  | cons p rest => cases rest <;> simp [getPath, lookupL]

/-- Frame lemma: inserting at a path that is neither a prefix nor an
extension of the observed path leaves the observed path unchanged. -/
theorem getPath_set_rest_frame (q2 : List String) (m : List (String × Value)) (v : Value)
    (p2 : List String) (hp : p2 ≠ []) (hq : q2 ≠ [])
    (hpq : ¬ p2 <+: q2) (hqp : ¬ q2 <+: p2) :
    getPath (set_nested_rest m q2 v) p2 = getPath m p2 := by
  induction q2 generalizing m p2 with
  | nil => exact absurd rfl hq
  | cons q qs ihq =>
    cases p2 with
    | nil => exact absurd rfl hp
    | cons p ps =>
      by_cases hpq1 : p = q
      · subst hpq1
        have hps : ¬ ps <+: qs := fun hc => hpq (List.cons_prefix_cons.mpr ⟨rfl, hc⟩)
        have hqs : ¬ qs <+: ps := fun hc => hqp (List.cons_prefix_cons.mpr ⟨rfl, hc⟩)
        have hpsne : ps ≠ [] := by
          rintro rfl
          exact hpq (List.cons_prefix_cons.mpr ⟨rfl, ⟨qs, rfl⟩⟩)
        have hqsne : qs ≠ [] := by
          rintro rfl
          exact hqp (List.cons_prefix_cons.mpr ⟨rfl, ⟨ps, rfl⟩⟩)
        cases qs with
        | nil => exact absurd rfl hqsne
        | cons q1 qs1 =>
          cases ps with
          | nil => exact absurd rfl hpsne
          | cons p1 ps1 =>
            cases hm : lookupL m p with
            | none =>
              simp only [set_nested_rest, hm, getPath, lookupL_insertL_self]
              rw [ihq [] _ hpsne hqsne hps hqs, getPath_nil_map _ hpsne]
            | some w =>
              cases w with
              | str s =>
                simp only [set_nested_rest, hm, getPath, lookupL_insertL_self]
                rw [ihq [] _ hpsne hqsne hps hqs, getPath_nil_map _ hpsne]
              | map mm =>
                simp only [set_nested_rest, hm, getPath, lookupL_insertL_self]
                exact ihq mm _ hpsne hqsne hps hqs
      · cases qs with
        | nil =>
          cases ps with
          | nil => simp [set_nested_rest, getPath, lookupL_insertL_ne _ _ _ _ hpq1]
          | cons p1 ps1 =>
            simp only [set_nested_rest, getPath, lookupL_insertL_ne _ _ _ _ hpq1]
        | cons q1 qs1 =>
          cases ps with
          | nil =>
            simp only [set_nested_rest, getPath, lookupL_insertL_ne _ _ _ _ hpq1]
          | cons p1 ps1 =>
            simp only [set_nested_rest, getPath, lookupL_insertL_ne _ _ _ _ hpq1]

/-- Splitting never produces an empty group list. -/
theorem splitChar_ne_nil (sep : Char) (cs : List Char) : splitChar sep cs ≠ [] := by
  cases cs with
  | nil => simp [splitChar]
  | cons c cs =>
    by_cases h : c = sep
    · simp [splitChar, h]
    · simp only [splitChar, if_neg h]
      cases splitChar sep cs <;> simp

/-- Key segmentation never yields an empty segment list. -/
theorem segsOf_ne_nil (key : String) : segsOf key ≠ [] := by
  unfold segsOf
  intro h
  exact splitChar_ne_nil '.' key.data (List.map_eq_nil_iff.mp h)

/-- The set_nested wrapper always reduces to set_nested_rest on the segment
list. -/
theorem set_nested_eq_rest (root : List (String × Value)) (key : String) (v : Value) :
    set_nested root key v = set_nested_rest root (segsOf key) v := by
  unfold set_nested
  cases h : segsOf key with
  | nil => exact absurd h (segsOf_ne_nil key)
  | cons p rest => rfl

/-- Running the parse loop on an appended line list runs it on the first part
and, when that succeeds, continues on the second with the counter advanced. -/
theorem parse_go_append (as bs : List String) (root : List (String × Value)) (n : Nat) :
    parse_go root n (as ++ bs) =
      match parse_go root n as with
      | .ok r => parse_go r (n + as.length) bs
      | .error e => .error e := by
  induction as generalizing root n with
  | nil => simp [parse_go]
  | cons l rest ih =>
    cases hc : classifyLine l with
    | skip =>
      have h1 : parse_go root n ((l :: rest) ++ bs) = parse_go root (n + 1) (rest ++ bs) := by
        show parse_go root n (l :: (rest ++ bs)) = _
        simp [parse_go, hc]
      have h2 : parse_go root n (l :: rest) = parse_go root (n + 1) rest := by
        simp [parse_go, hc]
      rw [h1, h2, ih]
      cases parse_go root (n + 1) rest with
      | ok r =>
        simp only [List.length_cons]
        have harith : n + 1 + rest.length = n + (rest.length + 1) := by omega
        rw [harith]
      | error e => rfl
    | assign k v =>
      have h1 : parse_go root n ((l :: rest) ++ bs) =
          parse_go (set_nested root k (Value.str v)) (n + 1) (rest ++ bs) := by
        show parse_go root n (l :: (rest ++ bs)) = _
        simp [parse_go, hc]
      have h2 : parse_go root n (l :: rest) =
          parse_go (set_nested root k (Value.str v)) (n + 1) rest := by
        simp [parse_go, hc]
      rw [h1, h2, ih]
      cases parse_go (set_nested root k (Value.str v)) (n + 1) rest with
      | ok r =>
        simp only [List.length_cons]
        have harith : n + 1 + rest.length = n + (rest.length + 1) := by omega
        rw [harith]
      | error e => rfl
    | errMissingEq =>
      have h1 : parse_go root n ((l :: rest) ++ bs) =
          .error ⟨n + 1, "missing '='"⟩ := by
        show parse_go root n (l :: (rest ++ bs)) = _
        simp [parse_go, hc]
      have h2 : parse_go root n (l :: rest) = .error ⟨n + 1, "missing '='"⟩ := by
        simp [parse_go, hc]
      rw [h1, h2]
    | errEmptyKey =>
      have h1 : parse_go root n ((l :: rest) ++ bs) =
          .error ⟨n + 1, "empty key"⟩ := by
        show parse_go root n (l :: (rest ++ bs)) = _
        simp [parse_go, hc]
      have h2 : parse_go root n (l :: rest) = .error ⟨n + 1, "empty key"⟩ := by
        simp [parse_go, hc]
      rw [h1, h2]

/-- Preservation: a successful parse of lines none of which assigns to a path
comparable with the observed path leaves the observed path intact. -/
theorem parse_go_preserves (ls : List String) (root : List (String × Value)) (n : Nat)
    (m : List (String × Value)) (p2 : List String) (w : Value)
    (hok : parse_go root n ls = .ok m) (hp : p2 ≠ []) (hw : getPath root p2 = some w)
    (hnc : ∀ l ∈ ls, ∀ k v, classifyLine l = .assign k v →
      ¬ p2 <+: segsOf k ∧ ¬ segsOf k <+: p2) :
    getPath m p2 = some w := by
  induction ls generalizing root n with
  | nil =>
    simp [parse_go] at hok
    rw [← hok]
    exact hw
  | cons l rest ih =>
    simp only [parse_go] at hok
    cases hc : classifyLine l with
    | skip =>
      rw [hc] at hok
      exact ih root (n + 1) hok hw fun l2 h2 => hnc l2 (by simp [h2])
    | assign k v =>
      rw [hc] at hok
      refine ih _ (n + 1) hok ?_ fun l2 h2 => hnc l2 (by simp [h2])
      rw [set_nested_eq_rest]
      obtain ⟨h1, h2⟩ := hnc l (by simp) k v hc
      rw [getPath_set_rest_frame _ root _ p2 hp (segsOf_ne_nil k) h1 h2]
      exact hw
    | errMissingEq => rw [hc] at hok; exact absurd hok (by simp)
    | errEmptyKey => rw [hc] at hok; exact absurd hok (by simp)

/-- First-error lemma: if line i classifies as a missing equals sign and no
earlier line classifies as an error, the loop stops at line i. -/
theorem parse_go_first_missing (ls : List String) (root : List (String × Value)) (n i : Nat)
    (l : String) (hl : ls[i]? = some l) (hc : classifyLine l = .errMissingEq)
    (hearlier : ∀ j l2, j < i → ls[j]? = some l2 →
      classifyLine l2 ≠ .errMissingEq ∧ classifyLine l2 ≠ .errEmptyKey) :
    parse_go root n ls = .error ⟨n + i + 1, "missing '='"⟩ := by
  induction ls generalizing root n i with
  | nil => simp at hl
  | cons l0 rest ih =>
    cases i with
    | zero =>
      simp at hl
      subst hl
      simp [parse_go, hc]
    | succ i2 =>
      simp at hl
      have h0 := hearlier 0 l0 (Nat.succ_pos i2) (by simp)
      cases hc0 : classifyLine l0 with
      | skip =>
        have h1 : parse_go root n (l0 :: rest) = parse_go root (n + 1) rest := by
          simp [parse_go, hc0]
        rw [h1, ih root (n + 1) i2 hl
          fun j l2 hj h2 => hearlier (j + 1) l2 (by omega) (by simpa using h2)]
        have harith : n + 1 + i2 + 1 = n + (i2 + 1) + 1 := by omega
        rw [harith]
      | assign k v =>
        have h1 : parse_go root n (l0 :: rest) =
            parse_go (set_nested root k (Value.str v)) (n + 1) rest := by
          simp [parse_go, hc0]
        rw [h1, ih _ (n + 1) i2 hl
          fun j l2 hj h2 => hearlier (j + 1) l2 (by omega) (by simpa using h2)]
        have harith : n + 1 + i2 + 1 = n + (i2 + 1) + 1 := by omega
        rw [harith]
      | errMissingEq => exact absurd hc0 h0.1
      | errEmptyKey => exact absurd hc0 h0.2

/-- Erasing line numbers from the counted parse loop gives the uncounted
one. -/
theorem eraseLn_parse_go (ls : List String) (root : List (String × Value)) (n : Nat) :
    eraseLn (parse_go root n ls) = parse_core root ls := by
  induction ls generalizing root n with
  | nil => rfl
  | cons l rest ih =>
    cases hc : classifyLine l with
    | skip => simp [parse_go, parse_core, hc, ih]
    | assign k v => simp [parse_go, parse_core, hc, ih]
    | errMissingEq => simp [parse_go, parse_core, hc, eraseLn]
    | errEmptyKey => simp [parse_go, parse_core, hc, eraseLn]

/-- Blank lines and comment lines classify as skips. -/
theorem classifyLine_of_skippableBC (l : String) (h : skippableBC l = true) :
    classifyLine l = .skip := by
  unfold skippableBC at h
  unfold classifyLine
  cases hc : trimL l.data with
  | nil => rfl
  | cons c cs =>
    rw [hc] at h
    simp only at h
    have : c = '#' ∨ c = ';' := by
      rcases Bool.or_eq_true_iff.mp h with h1 | h1
      · exact Or.inl (by simpa using h1)
      · exact Or.inr (by simpa using h1)
    simp only [if_pos this]

/-- The uncounted parse loop ignores blank and comment lines: it only sees
the filtered line list. -/
theorem parse_core_filter (ls : List String) (root : List (String × Value)) :
    parse_core root ls = parse_core root (ls.filter (fun l => !skippableBC l)) := by
  induction ls generalizing root with
  | nil => rfl
  | cons l rest ih =>
    by_cases h : skippableBC l
    · rw [List.filter_cons, if_neg (by simp [h])]
      rw [show parse_core root (l :: rest) = parse_core root rest from by
        simp [parse_core, classifyLine_of_skippableBC l h]]
      exact ih root
    · rw [List.filter_cons, if_pos (by simp [h])]
      cases hc : classifyLine l with
      | skip =>
        rw [show parse_core root (l :: rest) = parse_core root rest from by
            simp [parse_core, hc],
          show parse_core root (l :: List.filter (fun l => !skippableBC l) rest) =
              parse_core root (List.filter (fun l => !skippableBC l) rest) from by
            simp [parse_core, hc]]
        exact ih root
      | assign k v =>
        rw [show parse_core root (l :: rest) =
              parse_core (set_nested root k (Value.str v)) rest from by
            simp [parse_core, hc],
          show parse_core root (l :: List.filter (fun l => !skippableBC l) rest) =
              parse_core (set_nested root k (Value.str v))
                (List.filter (fun l => !skippableBC l) rest) from by
            simp [parse_core, hc]]
        exact ih _
      | errMissingEq => simp [parse_core, hc]
      | errEmptyKey => simp [parse_core, hc]

theorem validate_ok_iff (c : List (String × Value)) (pre : String)
    (s : List (String × SchemaType)) :
    validate_impl c pre s = .ok () ↔
      ∀ p r, (p, r) ∈ leavesL c pre →
        ∃ t, lookupL s p = some t ∧ t.check_value r = true := by
  induction c, pre, s using validate_impl.induct with
  | case1 pre s => simp [validate_impl, leavesL]
  | case2 k rest pre s path t hnone =>
    constructor
    · intro h
      exact absurd h (by simp [validate_impl, hnone])
    · intro h
      obtain ⟨t2, ht2, _⟩ := h (joinPath pre k) t (by simp [leavesL])
      rw [hnone] at ht2
      cases ht2
  | case3 k rest pre s path t st hsome hchk ih =>
    rw [show validate_impl ((k, Value.str t) :: rest) pre s = validate_impl rest pre s from by
      simp [validate_impl, hsome, hchk]]
    rw [ih]
    constructor
    · intro h p r hm
      rcases (by simpa [leavesL] using hm :
          (p = joinPath pre k ∧ r = t) ∨ (p, r) ∈ leavesL rest pre) with ⟨rfl, rfl⟩ | hm2
      · exact ⟨st, hsome, hchk⟩
      · exact h p r hm2
    · intro h p r hm
      exact h p r (by simp [leavesL, hm])
  | case4 k rest pre s path t st hsome hchk =>
    constructor
    · intro h
      exact absurd h (by simp [validate_impl, hsome, hchk])
    · intro h
      obtain ⟨t2, ht2, hc2⟩ := h (joinPath pre k) t (by simp [leavesL])
      rw [hsome] at ht2
      cases ht2
      exact absurd hc2 (by simp [hchk])
  | case5 k rest pre s path m e herr ihm =>
    constructor
    · intro h
      exact absurd h (by simp [validate_impl, herr])
    · intro h
      have : validate_impl m (joinPath pre k) s = .ok () := by
        rw [ihm]
        intro p r hm
        exact h p r (by simp [leavesL, hm])
      rw [this] at herr
      cases herr
  | case6 k rest pre s path m u hok ihm ihr =>
    rw [show validate_impl ((k, Value.map m) :: rest) pre s = validate_impl rest pre s from by
      simp [validate_impl, hok]]
    rw [ihr]
    constructor
    · intro h p r hm
      rcases (by simpa [leavesL] using hm :
          (p, r) ∈ leavesL m (joinPath pre k) ∨ (p, r) ∈ leavesL rest pre) with hm2 | hm2
      · have hmok : validate_impl m (joinPath pre k) s = .ok () := by
          cases u
          exact hok
        exact (ihm.mp hmok) p r hm2
      · exact h p r hm2
    · intro h p r hm
      exact h p r (by simp [leavesL, hm])

theorem validate_err_shape (c : List (String × Value)) (pre : String)
    (s : List (String × SchemaType)) :
    ∀ e, validate_impl c pre s = .error e →
      (∃ p r, (p, r) ∈ leavesL c pre ∧ lookupL s p = none ∧ e = .UnknownKey p) ∨
      (∃ p r t, (p, r) ∈ leavesL c pre ∧ lookupL s p = some t ∧
        t.check_value r = false ∧ e = .InvalidType p (expected_name t) r) := by
  induction c, pre, s using validate_impl.induct with
  | case1 pre s =>
    intro e he
    exact absurd he (by simp [validate_impl])
  | case2 k rest pre s path t hnone =>
    intro e he
    rw [show validate_impl ((k, Value.str t) :: rest) pre s =
        .error (.UnknownKey (joinPath pre k)) from by simp [validate_impl, hnone]] at he
    cases he
    exact Or.inl ⟨joinPath pre k, t, by simp [leavesL], hnone, rfl⟩
  | case3 k rest pre s path t st hsome hchk ih =>
    intro e he
    rw [show validate_impl ((k, Value.str t) :: rest) pre s = validate_impl rest pre s from by
      simp [validate_impl, hsome, hchk]] at he
    rcases ih e he with ⟨p, r, hm, hl, hE⟩ | ⟨p, r, t2, hm, hl, hc2, hE⟩
    · exact Or.inl ⟨p, r, by simp [leavesL, hm], hl, hE⟩
    · exact Or.inr ⟨p, r, t2, by simp [leavesL, hm], hl, hc2, hE⟩
  | case4 k rest pre s path t st hsome hchk =>
    intro e he
    rw [show validate_impl ((k, Value.str t) :: rest) pre s =
        .error (.InvalidType (joinPath pre k) (expected_name st) t) from by
      simp [validate_impl, hsome, hchk]] at he
    cases he
    exact Or.inr ⟨joinPath pre k, t, st, by simp [leavesL], hsome, by simpa using hchk, rfl⟩
  | case5 k rest pre s path m e0 herr ihm =>
    intro e he
    rw [show validate_impl ((k, Value.map m) :: rest) pre s = .error e0 from by
      simp [validate_impl, herr]] at he
    cases he
    rcases ihm e0 herr with ⟨p, r, hm, hl, hE⟩ | ⟨p, r, t2, hm, hl, hc2, hE⟩
    · exact Or.inl ⟨p, r, by simp [leavesL, hm], hl, hE⟩
    · exact Or.inr ⟨p, r, t2, by simp [leavesL, hm], hl, hc2, hE⟩
  | case6 k rest pre s path m u hok ihm ihr =>
    intro e he
    rw [show validate_impl ((k, Value.map m) :: rest) pre s = validate_impl rest pre s from by
      simp [validate_impl, hok]] at he
    rcases ihr e he with ⟨p, r, hm, hl, hE⟩ | ⟨p, r, t2, hm, hl, hc2, hE⟩
    · exact Or.inl ⟨p, r, by simp [leavesL, hm], hl, hE⟩
    · exact Or.inr ⟨p, r, t2, by simp [leavesL, hm], hl, hc2, hE⟩

theorem flatten_ok_iff (c : List (String × Value)) (pre : String)
    (out : List (String × SchemaType)) :
    (∃ s2, flatten_to_schema_impl c pre out = .ok s2) ↔
      ∀ p t, (p, t) ∈ leavesL c pre → SchemaType.from_name t ≠ none := by
  induction c, pre, out using flatten_to_schema_impl.induct with
  | case1 pre out =>
    constructor
    · intro _ p t hm
      exact absurd hm (by simp [leavesL])
    · intro _
      exact ⟨out, by simp [flatten_to_schema_impl]⟩
  | case2 k rest pre out t hnone =>
    constructor
    · intro h
      obtain ⟨s2, hs2⟩ := h
      rw [show flatten_to_schema_impl ((k, Value.str t) :: rest) pre out =
          .error (.UnknownType (joinPath pre k) t) from by
        simp [flatten_to_schema_impl, hnone]] at hs2
      cases hs2
    · intro h
      exact absurd hnone (h (joinPath pre k) t (by simp [leavesL]))
  | case3 k rest pre out path t st hsome ih =>
    rw [show (∃ s2, flatten_to_schema_impl ((k, Value.str t) :: rest) pre out = .ok s2) ↔
        (∃ s2, flatten_to_schema_impl rest pre (insertL out (joinPath pre k) st) = .ok s2) from by
      constructor <;> (rintro ⟨s2, hs2⟩; exact ⟨s2, by
        simp only [flatten_to_schema_impl, hsome] at hs2 ⊢
        exact hs2⟩)]
    rw [ih]
    constructor
    · intro h p t2 hm
      rcases (by simpa [leavesL] using hm :
          (p = joinPath pre k ∧ t2 = t) ∨ (p, t2) ∈ leavesL rest pre) with ⟨rfl, rfl⟩ | hm2
      · simp [hsome]
      · exact h p t2 hm2
    · intro h p t2 hm
      exact h p t2 (by simp [leavesL, hm])
  | case4 k rest pre out path m e0 herr ihm =>
    constructor
    · intro h
      obtain ⟨s2, hs2⟩ := h
      rw [show flatten_to_schema_impl ((k, Value.map m) :: rest) pre out = .error e0 from by
        simp [flatten_to_schema_impl, herr]] at hs2
      cases hs2
    · intro h
      have : ∃ s2, flatten_to_schema_impl m (joinPath pre k) out = .ok s2 := by
        rw [ihm]
        intro p t2 hm
        exact h p t2 (by simp [leavesL, hm])
      obtain ⟨s2, hs2⟩ := this
      rw [hs2] at herr
      cases herr
  | case5 k rest pre out path m out2 hok ihm ihr =>
    rw [show (∃ s2, flatten_to_schema_impl ((k, Value.map m) :: rest) pre out = .ok s2) ↔
        (∃ s2, flatten_to_schema_impl rest pre out2 = .ok s2) from by
      constructor <;> (rintro ⟨s2, hs2⟩; exact ⟨s2, by
        simp only [flatten_to_schema_impl, hok] at hs2 ⊢
        exact hs2⟩)]
    rw [ihr]
    constructor
    · intro h p t2 hm
      rcases (by simpa [leavesL] using hm :
          (p, t2) ∈ leavesL m (joinPath pre k) ∨ (p, t2) ∈ leavesL rest pre) with hm2 | hm2
      · exact (ihm.mp ⟨out2, hok⟩) p t2 hm2
      · exact h p t2 hm2
    · intro h p t2 hm
      exact h p t2 (by simp [leavesL, hm])

theorem flatten_err_shape (c : List (String × Value)) (pre : String)
    (out : List (String × SchemaType)) :
    ∀ e, flatten_to_schema_impl c pre out = .error e →
      ∃ p t, (p, t) ∈ leavesL c pre ∧ SchemaType.from_name t = none ∧
        e = .UnknownType p t := by
  induction c, pre, out using flatten_to_schema_impl.induct with
  | case1 pre out =>
    intro e he
    exact absurd he (by simp [flatten_to_schema_impl])
  | case2 k rest pre out t hnone =>
    intro e he
    rw [show flatten_to_schema_impl ((k, Value.str t) :: rest) pre out =
        .error (.UnknownType (joinPath pre k) t) from by
      simp [flatten_to_schema_impl, hnone]] at he
    cases he
    exact ⟨joinPath pre k, t, by simp [leavesL], hnone, rfl⟩
  | case3 k rest pre out path t st hsome ih =>
    intro e he
    rw [show flatten_to_schema_impl ((k, Value.str t) :: rest) pre out =
        flatten_to_schema_impl rest pre (insertL out (joinPath pre k) st) from by
      simp [flatten_to_schema_impl, hsome]] at he
    obtain ⟨p, t2, hm, hn, hE⟩ := ih e he
    exact ⟨p, t2, by simp [leavesL, hm], hn, hE⟩
  | case4 k rest pre out path m e0 herr ihm =>
    intro e he
    rw [show flatten_to_schema_impl ((k, Value.map m) :: rest) pre out = .error e0 from by
      simp [flatten_to_schema_impl, herr]] at he
    cases he
    obtain ⟨p, t2, hm, hn, hE⟩ := ihm e0 herr
    exact ⟨p, t2, by simp [leavesL, hm], hn, hE⟩
  | case5 k rest pre out path m out2 hok ihm ihr =>
    intro e he
    rw [show flatten_to_schema_impl ((k, Value.map m) :: rest) pre out =
        flatten_to_schema_impl rest pre out2 from by
      simp [flatten_to_schema_impl, hok]] at he
    obtain ⟨p, t2, hm, hn, hE⟩ := ihr e he
    exact ⟨p, t2, by simp [leavesL, hm], hn, hE⟩

theorem parseDigits_isSome (neg : Bool) (ds : List Char) :
    (parseDigits neg ds).isSome =
      digitsInRange ds (if neg then 2 ^ 63 else 2 ^ 63 - 1) := by
  unfold parseDigits digitsInRange
  split_ifs <;> simp_all

theorem checkInt_eq_amended (raw : String) :
    SchemaType.check_value SchemaType.integer raw = amendedIntFormat raw := by
  show (parseI64 (trimStr raw)).isSome = amendedIntFormat raw
  unfold parseI64 amendedIntFormat
  split <;> simp_all [parseDigits_isSome]

theorem from_name_eq_table (t : String) :
    SchemaType.from_name t = claimNameTable (lowerStr (trimStr t)) := by
  unfold SchemaType.from_name claimNameTable
  split_ifs <;> simp_all

/-- C9: a key with consecutive dots (log..file) produces an empty middle
segment that is used as a literal map key; the parse succeeds and nests the
binding under the empty-string key, with no error. -/
theorem claim_C9 : parse_str "log..file = y" =
    .ok [("log", Value.map [("", Value.map [("file", Value.str "y")])])] := rfl

/-- C3 (amended): check_value for the Integer type returns true exactly when
the trimmed raw string is a single optional leading plus or minus sign
followed by one or more ASCII digits whose value fits in the signed 64-bit
range; the original claim wrongly excluded the leading plus sign. -/
theorem claim_C3 (raw : String) :
    SchemaType.check_value SchemaType.integer raw = amendedIntFormat raw :=
  checkInt_eq_amended raw

/-- C3 counterexample: the code accepts a leading plus sign, which the format
stated by the claim rejects. -/
theorem claim_C3_cex :
    SchemaType.check_value SchemaType.integer "+5" = true ∧
    claimIntFormat "+5" = false :=
  ⟨rfl, rfl⟩

/-- C4: an earlier leaf binding is replaced by a fresh empty node when a
later line uses the key as a path prefix; the previous leaf value is
discarded, and the deeper binding is inserted into the fresh node.  In
particular the two-line example parses to a node containing only b. -/
theorem claim_C4 :
    (∀ (root : List (String × Value)) (k p : String) (rest : List String) (v : Value)
      (s : String),
      segsOf k = p :: rest → rest ≠ [] → lookupL root p = some (Value.str s) →
      set_nested root k v = insertL root p (Value.map (set_nested_rest [] rest v))) ∧
    parse_str "a = x\na.b = y" = .ok [("a", Value.map [("b", Value.str "y")])] := by
  constructor
  · intro root k p rest v s hsegs hne hleaf
    rw [set_nested_eq_rest, hsegs]
    cases rest with
    | nil => exact absurd rfl hne
    | cons r1 rs => simp only [set_nested_rest, hleaf]
  · rfl

/-- C4 witness at a concrete leaf conflict. -/
theorem claim_C4_witness :
    segsOf "a.b" = ["a", "b"] ∧ (["b"] : List String) ≠ [] ∧
    lookupL [("a", Value.str "x")] "a" = some (Value.str "x") ∧
    set_nested [("a", Value.str "x")] "a.b" (Value.str "y") =
      insertL [("a", Value.str "x")] "a"
        (Value.map (set_nested_rest [] ["b"] (Value.str "y"))) :=
  ⟨rfl, by decide, rfl,
    claim_C4.1 [("a", Value.str "x")] "a.b" "a" ["b"] (Value.str "y") "x" rfl
      (by decide) rfl⟩

/-- C5: re-inserting at the same full dotted path overwrites the earlier
value, and the two-line example parses with no duplicate-key error to the
later value. -/
theorem claim_C5 :
    (∀ (m : List (String × Value)) (parts : List String) (v : Value), parts ≠ [] →
      getPath (set_nested_rest m parts v) parts = some v) ∧
    parse_str "a = 1\na = 2" = .ok [("a", Value.str "2")] :=
  ⟨fun m parts v h => getPath_set_rest_self parts m v h, rfl⟩

/-- C5 witness at a concrete overwrite. -/
theorem claim_C5_witness :
    (["a"] : List String) ≠ [] ∧
    getPath (set_nested_rest [("a", Value.str "1")] ["a"] (Value.str "2")) ["a"] =
      some (Value.str "2") :=
  ⟨by decide, claim_C5.1 [("a", Value.str "1")] ["a"] (Value.str "2") (by decide)⟩

/-- C10: a single-segment insert overwrites whatever sits under the key,
including a whole node of earlier nested bindings, and the two-line example
parses to just the leaf. -/
theorem claim_C10 :
    (∀ (root : List (String × Value)) (k p : String) (v : Value),
      segsOf k = [p] →
      set_nested root k v = insertL root p v ∧
        lookupL (insertL root p v) p = some v) ∧
    parse_str "a.b = y\na = x" = .ok [("a", Value.str "x")] := by
  constructor
  · intro root k p v hsegs
    refine ⟨?_, lookupL_insertL_self root p v⟩
    rw [set_nested_eq_rest, hsegs]
    simp [set_nested_rest]
  · rfl

/-- C10 witness at a concrete node overwrite. -/
theorem claim_C10_witness :
    segsOf "a" = ["a"] ∧
    set_nested [("a", Value.map [("b", Value.str "y")])] "a" (Value.str "x") =
      insertL [("a", Value.map [("b", Value.str "y")])] "a" (Value.str "x") ∧
    lookupL (insertL [("a", Value.map [("b", Value.str "y")])] "a" (Value.str "x")) "a" =
      some (Value.str "x") :=
  ⟨rfl,
    (claim_C10.1 [("a", Value.map [("b", Value.str "y")])] "a" "a" (Value.str "x") rfl).1,
    (claim_C10.1 [("a", Value.map [("b", Value.str "y")])] "a" "a" (Value.str "x") rfl).2⟩

/-- C6: when line i (zero-based) classifies as a missing equals sign and no
earlier line classifies as any error, the parse fails with the message
"missing '='" and the one-based line number i + 1, returning no tree. -/
theorem claim_C6 (input : String) (i : Nat) (l : String)
    (hl : (rustLines input)[i]? = some l)
    (hc : classifyLine l = .errMissingEq)
    (hearlier : ∀ j l2, j < i → (rustLines input)[j]? = some l2 →
      classifyLine l2 ≠ .errMissingEq ∧ classifyLine l2 ≠ .errEmptyKey) :
    parse_str input = .error ⟨i + 1, "missing '='"⟩ := by
  have h := parse_go_first_missing (rustLines input) [] 0 i l hl hc hearlier
  simpa [parse_str] using h

/-- C6 witness: the second line of a two-line input has no equals sign. -/
theorem claim_C6_witness :
    (rustLines "x = 1\nbad")[1]? = some "bad" ∧
    classifyLine "bad" = LineClass.errMissingEq ∧
    parse_str "x = 1\nbad" = .error ⟨2, "missing '='"⟩ :=
  ⟨rfl, rfl, claim_C6 "x = 1\nbad" 1 "bad" rfl rfl (by
    intro j l2 hj hl2
    have hj0 : j = 0 := Nat.lt_one_iff.mp hj
    subst hj0
    have hl2b : (["x = 1", "bad"] : List String)[0]? = some l2 := hl2
    simp only [List.getElem?_cons_zero, Option.some.injEq] at hl2b
    subst hl2b
    exact ⟨by decide, by decide⟩)⟩

/-- C8: two inputs whose line lists agree after removing blank lines and
comment lines parse to the same tree on success and the same error kind on
failure; only the reported line number can differ. -/
theorem claim_C8 (in1 in2 : String)
    (h : (rustLines in1).filter (fun l => !skippableBC l) =
      (rustLines in2).filter (fun l => !skippableBC l)) :
    eraseLn (parse_str in1) = eraseLn (parse_str in2) := by
  rw [parse_str, parse_str, eraseLn_parse_go, eraseLn_parse_go,
    parse_core_filter (rustLines in1), parse_core_filter (rustLines in2), h]

/-- C8 witness: inserting a comment line, a blank line and a semicolon
comment around an assignment does not change the parse outcome. -/
theorem claim_C8_witness :
    (rustLines "# c\na = 1\n\n; d").filter (fun l => !skippableBC l) =
      (rustLines "a = 1").filter (fun l => !skippableBC l) ∧
    eraseLn (parse_str "# c\na = 1\n\n; d") = eraseLn (parse_str "a = 1") :=
  ⟨rfl, claim_C8 "# c\na = 1\n\n; d" "a = 1" rfl⟩

/-- C2 (amended): for every config tree and schema, validate succeeds when
every leaf path is declared with a type accepting its value; when every
declared leaf checks but some leaf path is undeclared, validate fails with
UnknownKey carrying the dotted path of an undeclared leaf; when every leaf
path is declared but some value fails its check, validate fails with
InvalidType carrying the dotted path, the lowercase type name and the raw
value of a failing leaf.  The original claim omitted the guard on the
UnknownKey case: a type-check failure met earlier in the walk wins. -/
theorem claim_C2 (config : List (String × Value)) (schema : List (String × SchemaType)) :
    ((∀ p r, (p, r) ∈ leavesL config "" →
        ∃ t, lookupL schema p = some t ∧ t.check_value r = true) →
      validate config schema = .ok ()) ∧
    ((∀ p r t, (p, r) ∈ leavesL config "" → lookupL schema p = some t →
        t.check_value r = true) →
      (∃ p r, (p, r) ∈ leavesL config "" ∧ lookupL schema p = none) →
      ∃ p r, (p, r) ∈ leavesL config "" ∧ lookupL schema p = none ∧
        validate config schema = .error (.UnknownKey p)) ∧
    ((∀ p r, (p, r) ∈ leavesL config "" → lookupL schema p ≠ none) →
      (∃ p r t, (p, r) ∈ leavesL config "" ∧ lookupL schema p = some t ∧
        t.check_value r = false) →
      ∃ p r t, (p, r) ∈ leavesL config "" ∧ lookupL schema p = some t ∧
        t.check_value r = false ∧
        validate config schema = .error (.InvalidType p (expected_name t) r)) := by
  refine ⟨fun h => (validate_ok_iff config "" schema).mpr h, ?_, ?_⟩
  · intro hall hex
    obtain ⟨p0, r0, hm0, hn0⟩ := hex
    have hnotok : validate_impl config "" schema ≠ .ok () := by
      intro hok
      obtain ⟨t, ht, _⟩ := (validate_ok_iff config "" schema).mp hok p0 r0 hm0
      rw [hn0] at ht
      cases ht
    cases hv : validate_impl config "" schema with
    | ok u =>
      cases u
      exact absurd hv hnotok
    | error e =>
      rcases validate_err_shape config "" schema e hv with
        ⟨p, r, hm, hl, hE⟩ | ⟨p, r, t, hm, hl, hcv, hE⟩
      · subst hE
        exact ⟨p, r, hm, hl, hv⟩
      · exact absurd (hall p r t hm hl) (by simp [hcv])
  · intro hall hex
    obtain ⟨p0, r0, t0, hm0, hl0, hc0⟩ := hex
    have hnotok : validate_impl config "" schema ≠ .ok () := by
      intro hok
      obtain ⟨t, ht, hchk⟩ := (validate_ok_iff config "" schema).mp hok p0 r0 hm0
      rw [hl0] at ht
      cases ht
      rw [hchk] at hc0
      cases hc0
    cases hv : validate_impl config "" schema with
    | ok u =>
      cases u
      exact absurd hv hnotok
    | error e =>
      rcases validate_err_shape config "" schema e hv with
        ⟨p, r, hm, hl, hE⟩ | ⟨p, r, t, hm, hl, hcv, hE⟩
      · exact absurd hl (hall p r hm)
      · subst hE
        exact ⟨p, r, t, hm, hl, hcv, hv⟩

/-- C2 witness: a one-leaf config matching a one-entry schema validates. -/
theorem claim_C2_witness :
    validate [("a", Value.str "true")] [("a", SchemaType.bool)] = .ok () :=
  (claim_C2 [("a", Value.str "true")] [("a", SchemaType.bool)]).1 (by
    intro p r hm
    have hm2 : p = "a" ∧ r = "true" := by simpa [leavesL, joinPath] using hm
    obtain ⟨rfl, rfl⟩ := hm2
    exact ⟨SchemaType.bool, rfl, rfl⟩)

/-- C2 counterexample: with an undeclared leaf b and an earlier declared leaf
a whose value fails its Bool check, validate reports InvalidType for a, not
UnknownKey for b, refuting the unguarded UnknownKey sentence of the claim. -/
theorem claim_C2_cex :
    ("b", "v") ∈ leavesL [("a", Value.str "notabool"), ("b", Value.str "v")] "" ∧
    lookupL [("a", SchemaType.bool)] "b" = none ∧
    validate [("a", Value.str "notabool"), ("b", Value.str "v")] [("a", SchemaType.bool)] =
      .error (.InvalidType "a" "bool" "notabool") ∧
    validate [("a", Value.str "notabool"), ("b", Value.str "v")] [("a", SchemaType.bool)] ≠
      .error (.UnknownKey "b") := by
  have heq : validate [("a", Value.str "notabool"), ("b", Value.str "v")]
      [("a", SchemaType.bool)] = .error (.InvalidType "a" "bool" "notabool") := by
    simp [validate, validate_impl, joinPath, lookupL, expected_name,
      show SchemaType.bool.check_value "notabool" = false from rfl]
  refine ⟨by simp [leavesL, joinPath], rfl, heq, ?_⟩
  rw [heq]
  simp

/-- C7: from_name resolves a leaf value by trimming and lowercasing it and
consulting exactly the table string, bool, boolean, integer, int, float,
number of the claim; parse_schema_str succeeds precisely when every leaf of
the parsed tree resolves, and otherwise fails with UnknownType carrying the
dotted path and the raw type name of an unresolvable leaf, returning no
schema. -/
theorem claim_C7 (input : String) (tree : List (String × Value))
    (hp : parse_str input = .ok tree) :
    (∀ t, SchemaType.from_name t = claimNameTable (lowerStr (trimStr t))) ∧
    ((∀ p t, (p, t) ∈ leavesL tree "" → claimNameTable (lowerStr (trimStr t)) ≠ none) →
      isOkS (parse_schema_str input) = true) ∧
    (∀ e, parse_schema_str input = .error e →
      ∃ p t, (p, t) ∈ leavesL tree "" ∧ claimNameTable (lowerStr (trimStr t)) = none ∧
        e = .UnknownType p t) ∧
    ((∃ p t, (p, t) ∈ leavesL tree "" ∧ claimNameTable (lowerStr (trimStr t)) = none) →
      ∃ p t, (p, t) ∈ leavesL tree "" ∧ claimNameTable (lowerStr (trimStr t)) = none ∧
        parse_schema_str input = .error (.UnknownType p t)) := by
  have hps : parse_schema_str input = flatten_to_schema_impl tree "" [] := by
    simp [parse_schema_str, hp, flatten_to_schema]
  refine ⟨from_name_eq_table, ?_, ?_, ?_⟩
  · intro h
    have hok : ∃ s2, flatten_to_schema_impl tree "" [] = .ok s2 := by
      rw [flatten_ok_iff]
      intro p t hm
      rw [from_name_eq_table]
      exact h p t hm
    obtain ⟨s2, hs2⟩ := hok
    rw [hps, hs2]
    rfl
  · intro e he
    rw [hps] at he
    obtain ⟨p, t, hm, hn, hE⟩ := flatten_err_shape tree "" [] e he
    rw [from_name_eq_table] at hn
    exact ⟨p, t, hm, hn, hE⟩
  · intro hex
    obtain ⟨p0, t0, hm0, hn0⟩ := hex
    have hnotok : ¬ ∃ s2, flatten_to_schema_impl tree "" [] = .ok s2 := by
      rw [flatten_ok_iff]
      intro hall
      have := hall p0 t0 hm0
      rw [from_name_eq_table] at this
      exact this hn0
    cases hv : flatten_to_schema_impl tree "" [] with
    | ok s2 => exact absurd ⟨s2, hv⟩ hnotok
    | error e =>
      obtain ⟨p, t, hm, hn, hE⟩ := flatten_err_shape tree "" [] e hv
      subst hE
      rw [from_name_eq_table] at hn
      exact ⟨p, t, hm, hn, by rw [hps, hv]⟩

/-- C7 witness: a one-line schema with the shorthand int name parses. -/
theorem claim_C7_witness :
    parse_str "a = int" = .ok [("a", Value.str "int")] ∧
    isOkS (parse_schema_str "a = int") = true :=
  ⟨rfl, (claim_C7 "a = int" [("a", Value.str "int")] rfl).2.1 (by
    intro p t hm
    have hm2 : p = "a" ∧ t = "int" := by simpa [leavesL, joinPath] using hm
    obtain ⟨rfl, rfl⟩ := hm2
    decide)⟩

/-- C1 (amended): after a successful parse, if line i is an assignment with
trimmed key segments P and trimmed value v, and every assignment line after i
has a segment path that is neither a prefix nor an extension of P (in
particular no later line repeats P, so line i is the last line with that
path), then looking P up in the result yields the leaf v.  The original
claim lacked the prefix condition: a later line whose path extends or is a
prefix of P silently destroys the leaf. -/
theorem claim_C1 (input : String) (m : List (String × Value)) (i : Nat) (l k v : String)
    (hok : parse_str input = .ok m)
    (hl : (rustLines input)[i]? = some l)
    (hc : classifyLine l = .assign k v)
    (hlater : ∀ j l2 k2 v2, i < j → (rustLines input)[j]? = some l2 →
      classifyLine l2 = .assign k2 v2 →
      ¬ segsOf k <+: segsOf k2 ∧ ¬ segsOf k2 <+: segsOf k) :
    getPath m (segsOf k) = some (Value.str v) := by
  obtain ⟨hilen, hi⟩ := List.getElem?_eq_some.mp hl
  have hdrop : (rustLines input).drop i = l :: (rustLines input).drop (i + 1) := by
    rw [List.drop_eq_getElem_cons hilen, hi]
  have htake : ((rustLines input).take i).length = i := by
    rw [List.length_take]
    omega
  have hsplit : parse_go [] 0 (rustLines input) = .ok m := hok
  rw [← List.take_append_drop i (rustLines input), parse_go_append] at hsplit
  cases h1 : parse_go [] 0 ((rustLines input).take i) with
  | error e =>
    rw [h1] at hsplit
    exact absurd hsplit (by simp)
  | ok r1 =>
    rw [h1, htake, hdrop] at hsplit
    have hsplit2 : parse_go r1 (0 + i) (l :: (rustLines input).drop (i + 1)) = .ok m := hsplit
    have hstep : parse_go r1 (0 + i) (l :: (rustLines input).drop (i + 1)) =
        parse_go (set_nested r1 k (Value.str v)) (0 + i + 1) ((rustLines input).drop (i + 1)) := by
      simp [parse_go, hc]
    rw [hstep] at hsplit2
    have hbase : getPath (set_nested r1 k (Value.str v)) (segsOf k) =
        some (Value.str v) := by
      rw [set_nested_eq_rest]
      exact getPath_set_rest_self (segsOf k) r1 (Value.str v) (segsOf_ne_nil k)
    refine parse_go_preserves ((rustLines input).drop (i + 1)) _ (0 + i + 1) m
      (segsOf k) (Value.str v) hsplit2 (segsOf_ne_nil k) hbase ?_
    intro l2 hmem k2 v2 hc2
    obtain ⟨j2, hj2⟩ := List.mem_iff_getElem?.mp hmem
    rw [List.getElem?_drop] at hj2
    exact hlater (i + 1 + j2) l2 k2 v2 (by omega) hj2 hc2

/-- C1 witness: a single assignment line looked up at its own path. -/
theorem claim_C1_witness :
    parse_str "a = 1" = .ok [("a", Value.str "1")] ∧
    classifyLine "a = 1" = .assign "a" "1" ∧
    getPath [("a", Value.str "1")] (segsOf "a") = some (Value.str "1") :=
  ⟨rfl, rfl, claim_C1 "a = 1" [("a", Value.str "1")] 0 "a = 1" "a" "1" rfl rfl rfl (by
    intro j l2 k2 v2 hj hl2 hc2
    exfalso
    have hl2b : (["a = 1"] : List String)[j]? = some l2 := hl2
    obtain ⟨hlen, _⟩ := List.getElem?_eq_some.mp hl2b
    simp at hlen
    omega)⟩

/-- C1 counterexample: in the two-line input, line 0 is the last (and only)
line whose path is the single segment a, yet looking up that path yields a
node, not the leaf x, because line 1 extends the path and destroyed the
leaf. -/
theorem claim_C1_cex :
    parse_str "a = x\na.b = y" = .ok [("a", Value.map [("b", Value.str "y")])] ∧
    (rustLines "a = x\na.b = y")[0]? = some "a = x" ∧
    classifyLine "a = x" = .assign "a" "x" ∧
    (rustLines "a = x\na.b = y")[1]? = some "a.b = y" ∧
    classifyLine "a.b = y" = .assign "a.b" "y" ∧
    (rustLines "a = x\na.b = y")[2]? = none ∧
    segsOf "a.b" ≠ segsOf "a" ∧
    getPath [("a", Value.map [("b", Value.str "y")])] (segsOf "a") ≠
      some (Value.str "x") := by
  refine ⟨rfl, rfl, rfl, rfl, rfl, rfl, by decide, ?_⟩
  intro h
  rw [show getPath [("a", Value.map [("b", Value.str "y")])] (segsOf "a") =
      some (Value.map [("b", Value.str "y")]) from rfl] at h
  simp at h

end SysctlConf
